import Mathlib

set_option autoImplicit false

/-!
Shallow embedding of the move-selection strategies of the Quixo project
(files min_max.py and monte_carlo_rl.py): the static evaluation heuristic,
the plain MinMax engine and the alpha-beta engine with their per-role
transposition caches, and the Monte Carlo value-learning machinery.
The external rules engine (game.py / investigate_game.py) is modelled as an
abstract interface, a structure of functions supplying exactly what the
two source files consume: a winner oracle, the board, the transition
enumeration with its attached hashable keys, the symmetry transform list
and the per-perspective hashable key of a state.
-/

/-- Value domain of the adversarial search: the Python floats the engines
actually produce, namely minus infinity, finite integer scores of the static
evaluation, and plus infinity. -/
inductive Val : Type where
  | ninf : Val
  | fin : ℤ → Val
  | pinf : Val
deriving DecidableEq, Repr

/-- Python comparison a <= b on the value domain. -/
def Val.ble : Val → Val → Bool
  | .ninf, _ => true
  | .fin _, .ninf => false
  | .fin a, .fin b => a ≤ b
  | .fin _, .pinf => true
  | .pinf, .pinf => true
  | .pinf, .ninf => false
  | .pinf, .fin _ => false

/-- Python strict comparison a < b on the value domain. -/
def Val.blt (a b : Val) : Bool := !(Val.ble b a)

/-- Python max(a, b): the first argument is kept when the two are equal. -/
def vmax (a b : Val) : Val := if Val.ble b a then a else b

/-- Python min(a, b): the first argument is kept when the two are equal. -/
def vmin (a b : Val) : Val := if Val.ble a b then a else b

/-- Cache entry of the transposition caches: EntryMinMax = (depth, value)
from min_max.py. -/
structure EntryMinMax : Type where
  depth : ℤ
  value : Val
deriving DecidableEq, Repr

/-- Transposition cache: a Python dict from state keys to entries, embedded
as an association list where a store prepends and a lookup takes the first
match, so a later store shadows an earlier one exactly like a dict update. -/
abbrev Cache : Type := List (ℤ × EntryMinMax)

/-- Dict lookup cache[key]. -/
def cacheLookup (c : Cache) (k : ℤ) : Option EntryMinMax :=
  (c.find? (fun p => p.1 == k)).map (·.2)

/-- Dict store cache[key] = entry. -/
def cacheStore (c : Cache) (k : ℤ) (e : EntryMinMax) : Cache := (k, e) :: c

/-- Mutable state of a MinMaxPlayer / AlphaBetaMinMaxPlayer instance that the
search procedures read and write: the two per-role caches
(visited_max_states, visited_min_states) and the hit counter. -/
structure MMState : Type where
  visitedMax : Cache
  visitedMin : Cache
  hit : ℕ
deriving DecidableEq, Repr

/-- State of a freshly constructed player: empty caches, zero hits. -/
def MMState.empty : MMState := ⟨[], [], 0⟩

/-- Record a cache hit for diagnostics (self._hit += 1). -/
def MMState.hitInc (st : MMState) : MMState := { st with hit := st.hit + 1 }

/-- Store into the max-role cache (self._visited_max_states[key] = e). -/
def MMState.storeMax (st : MMState) (k : ℤ) (e : EntryMinMax) : MMState :=
  { st with visitedMax := cacheStore st.visitedMax k e }

/-- Store into the min-role cache (self._visited_min_states[key] = e). -/
def MMState.storeMin (st : MMState) (k : ℤ) (e : EntryMinMax) : MMState :=
  { st with visitedMin := cacheStore st.visitedMin k e }

/-- Cache consultation guard of both engines:
key in cache and depth <= cache[key].depth, returning the cached value when
the guard holds. -/
def probe (c : Cache) (k d : ℤ) : Option Val :=
  match cacheLookup c k with
  | some e => if d ≤ e.depth then some e.value else none
  | none => none

/-- Abstract interface to the external rules engine and symmetry subsystem,
exactly the operations min_max.py and monte_carlo_rl.py consume.
A transition is the triple (action, resulting state, hashable key) produced
by generate_possible_transitions / generate_canonical_transitions for a given
acting player id; actions are opaque and numbered by naturals. -/
structure GameSpec (S : Type) : Type where
  winner : S → ℤ
  board : S → List (List ℤ)
  trans : ℤ → S → List (ℕ × S × ℤ)
  symm : S → List S
  hkey : ℤ → S → ℤ
  curPlayer : S → ℤ

/-- Opponent id: abs(1 - player_id) from the constructor of MinMaxPlayer. -/
def oppId (pid : ℤ) : ℤ := |1 - pid|

/-- Board lines examined by evaluation_function, assembled in source order:
all rows, all columns, the principal diagonal, the secondary diagonal. -/
def boardLines (b : List (List ℤ)) : List (List ℤ) :=
  b
    ++ (List.range (b.headD []).length).map (fun x => b.map (fun r => r.getD x (-2)))
    ++ [(List.range b.length).map (fun y => (b.getD y []).getD y (-2))]
    ++ [(List.range b.length).map (fun y =>
          let r := b.getD y []
          r.getD (r.length - 1 - y) (-2))]

/-- Predicate of evaluation_function on one line: every cell belongs to
player p or is neutral (-1). -/
def lineOpen (p : ℤ) (l : List ℤ) : Bool :=
  l.all (fun c => c == p || c == -1)

/-- MinMaxPlayer.evaluation_function: plus infinity when the max player has
won, minus infinity when the min player has won, otherwise the number of
lines still open for max minus the number still open for min. -/
def evaluation_function {S : Type} (G : GameSpec S) (pid : ℤ) (g : S) : Val :=
  if G.winner g = pid then .pinf
  else if G.winner g = oppId pid then .ninf
  else
    let ls := boardLines (G.board g)
    .fin ((ls.countP (fun l => lineOpen pid l) : ℤ)
          - (ls.countP (fun l => lineOpen (oppId pid) l) : ℤ))

/-!
Plain MinMax engine (class MinMaxPlayer). The two mutually recursive search
procedures max_value and min_value are embedded with explicit state passing;
the Python for-loop over transitions becomes an auxiliary loop function. The
loop carries, besides the running value, the current value of the loop
variable named key: in the source this loop variable shadows the parameter
key, so the store performed after the loop uses the key of the last examined
transition (or the queried key when there are no transitions).
-/

mutual

/-- MinMaxPlayer.max_value(game, key, depth): cache check, terminal or
cutoff check, otherwise take the max over all children at depth - 1 and
store the result at the current value of the (shadowed) key variable. -/
def mmMaxValue {S : Type} (G : GameSpec S) (pid : ℤ) (g : S) (key d : ℤ)
    (st : MMState) : Val × MMState :=
  match probe st.visitedMax key d with
  | some v => (v, st.hitInc)
  | none =>
    if h : d ≤ 0 ∨ G.winner g ≠ -1 then
      (evaluation_function G pid g,
       st.storeMax key ⟨0, evaluation_function G pid g⟩)
    else
      mmMaxLoop G pid (G.trans pid g) Val.ninf key d (d - 1) st
termination_by (d.toNat, 1, 0)

/-- Loop of max_value over the transitions, threading the running max, the
loop key variable and the cache state; the base case performs the store that
follows the loop in the source, at the last loop key. -/
def mmMaxLoop {S : Type} (G : GameSpec S) (pid : ℤ) (ts : List (ℕ × S × ℤ))
    (acc : Val) (lastKey : ℤ) (dp dc : ℤ) (st : MMState) : Val × MMState :=
  match ts with
  | [] => (acc, st.storeMax lastKey ⟨dp, acc⟩)
  | (_, s, k) :: rest =>
    let r := mmMinValue G pid s k dc st
    mmMaxLoop G pid rest (vmax acc r.1) k dp dc r.2
termination_by (dc.toNat, 2, ts.length)

/-- MinMaxPlayer.min_value(game, key, depth), symmetric to max_value with
the min-role cache, the opponent as mover and the min over children. -/
def mmMinValue {S : Type} (G : GameSpec S) (pid : ℤ) (g : S) (key d : ℤ)
    (st : MMState) : Val × MMState :=
  match probe st.visitedMin key d with
  | some v => (v, st.hitInc)
  | none =>
    if h : d ≤ 0 ∨ G.winner g ≠ -1 then
      (evaluation_function G pid g,
       st.storeMin key ⟨0, evaluation_function G pid g⟩)
    else
      mmMinLoop G pid (G.trans (oppId pid) g) Val.pinf key d (d - 1) st
termination_by (d.toNat, 1, 0)

/-- Loop of min_value over the transitions, symmetric to mmMaxLoop. -/
def mmMinLoop {S : Type} (G : GameSpec S) (pid : ℤ) (ts : List (ℕ × S × ℤ))
    (acc : Val) (lastKey : ℤ) (dp dc : ℤ) (st : MMState) : Val × MMState :=
  match ts with
  | [] => (acc, st.storeMin lastKey ⟨dp, acc⟩)
  | (_, s, k) :: rest =>
    let r := mmMaxValue G pid s k dc st
    mmMinLoop G pid rest (vmin acc r.1) k dp dc r.2
termination_by (dc.toNat, 2, ts.length)

end

/-- Loop of Python max(enumerate(actions), key = ...) at the root of
MinMaxPlayer.make_move: the key function evaluates min_value on each root
transition in order (threading the caches) and the first transition
attaining the maximal value is kept. -/
def mmArgmaxLoop {S : Type} (G : GameSpec S) (pid d : ℤ)
    (ts : List (ℕ × S × ℤ)) (best : ℕ × Val) (st : MMState) :
    (ℕ × Val) × MMState :=
  match ts with
  | [] => (best, st)
  | (a, s, k) :: rest =>
    let r := mmMinValue G pid s k (d - 1) st
    mmArgmaxLoop G pid d rest (if Val.blt best.2 r.1 then (a, r.1) else best) r.2

/-- MinMaxPlayer.make_move: enumerate the root transitions, evaluate each by
min_value at depth - 1 and return the first action attaining the maximum
(together with its root search value and the final caches). An empty
transition enumeration makes the Python unpacking raise, embedded as none. -/
def mmMakeMove {S : Type} (G : GameSpec S) (pid d : ℤ) (g : S) (st : MMState) :
    Option ((ℕ × Val) × MMState) :=
  match G.trans pid g with
  | [] => none
  | (a, s, k) :: rest =>
    let r := mmMinValue G pid s k (d - 1) st
    some (mmArgmaxLoop G pid d rest (a, r.1) r.2)

/-!
AlphaBeta engine (class AlphaBetaMinMaxPlayer). Same cache discipline as the
plain engine; alpha and beta are threaded through every call. The loop body
updates the best value and the corresponding bound only when the child value
strictly improves it, then tests the fail-hard cutoff; on a cutoff the store
happens inside the loop at the current loop key and the remaining transitions
are never examined. The same loop-variable shadowing as in the plain engine
applies to every store.
-/

mutual

/-- AlphaBetaMinMaxPlayer.max_value(game, key, depth, alpha, beta). -/
def abMaxValue {S : Type} (G : GameSpec S) (pid : ℤ) (g : S) (key d : ℤ)
    (alpha beta : Val) (st : MMState) : Val × MMState :=
  match probe st.visitedMax key d with
  | some v => (v, st.hitInc)
  | none =>
    if h : d ≤ 0 ∨ G.winner g ≠ -1 then
      (evaluation_function G pid g,
       st.storeMax key ⟨0, evaluation_function G pid g⟩)
    else
      abMaxLoop G pid (G.trans pid g) Val.ninf key alpha beta d (d - 1) st
termination_by (d.toNat, 1, 0)

/-- Loop of the alpha-beta max_value: value = min_value(child);
if value > best then best = value and alpha = max(alpha, best);
if best >= beta then store at the loop key and return immediately;
after the loop, store at the last loop key. -/
def abMaxLoop {S : Type} (G : GameSpec S) (pid : ℤ) (ts : List (ℕ × S × ℤ))
    (best : Val) (lastKey : ℤ) (alpha beta : Val) (dp dc : ℤ)
    (st : MMState) : Val × MMState :=
  match ts with
  | [] => (best, st.storeMax lastKey ⟨dp, best⟩)
  | (_, s, k) :: rest =>
    let r := abMinValue G pid s k dc alpha beta st
    let best1 := if Val.blt best r.1 then r.1 else best
    let alpha1 := if Val.blt best r.1 then vmax alpha best1 else alpha
    if Val.ble beta best1 then (best1, r.2.storeMax k ⟨dp, best1⟩)
    else abMaxLoop G pid rest best1 k alpha1 beta dp dc r.2
termination_by (dc.toNat, 2, ts.length)

/-- AlphaBetaMinMaxPlayer.min_value(game, key, depth, alpha, beta). -/
def abMinValue {S : Type} (G : GameSpec S) (pid : ℤ) (g : S) (key d : ℤ)
    (alpha beta : Val) (st : MMState) : Val × MMState :=
  match probe st.visitedMin key d with
  | some v => (v, st.hitInc)
  | none =>
    if h : d ≤ 0 ∨ G.winner g ≠ -1 then
      (evaluation_function G pid g,
       st.storeMin key ⟨0, evaluation_function G pid g⟩)
    else
      abMinLoop G pid (G.trans (oppId pid) g) Val.pinf key alpha beta d (d - 1) st
termination_by (d.toNat, 1, 0)

/-- Loop of the alpha-beta min_value: value = max_value(child);
if value < best then best = value and beta = min(beta, best);
if best <= alpha then store at the loop key and return immediately;
after the loop, store at the last loop key. -/
def abMinLoop {S : Type} (G : GameSpec S) (pid : ℤ) (ts : List (ℕ × S × ℤ))
    (best : Val) (lastKey : ℤ) (alpha beta : Val) (dp dc : ℤ)
    (st : MMState) : Val × MMState :=
  match ts with
  | [] => (best, st.storeMin lastKey ⟨dp, best⟩)
  | (_, s, k) :: rest =>
    let r := abMaxValue G pid s k dc alpha beta st
    let best1 := if Val.blt r.1 best then r.1 else best
    let beta1 := if Val.blt r.1 best then vmin beta best1 else beta
    if Val.ble best1 alpha then (best1, r.2.storeMin k ⟨dp, best1⟩)
    else abMinLoop G pid rest best1 k alpha beta1 dp dc r.2
termination_by (dc.toNat, 2, ts.length)

end

/-- Loop of Python max(enumerate(actions), key = ...) at the root of
AlphaBetaMinMaxPlayer.make_move; each root transition is evaluated by the
alpha-beta min_value with the full window (minus infinity, plus infinity). -/
def abArgmaxLoop {S : Type} (G : GameSpec S) (pid d : ℤ)
    (ts : List (ℕ × S × ℤ)) (best : ℕ × Val) (st : MMState) :
    (ℕ × Val) × MMState :=
  match ts with
  | [] => (best, st)
  | (a, s, k) :: rest =>
    let r := abMinValue G pid s k (d - 1) Val.ninf Val.pinf st
    abArgmaxLoop G pid d rest (if Val.blt best.2 r.1 then (a, r.1) else best) r.2

/-- AlphaBetaMinMaxPlayer.make_move: like the plain make_move but through the
alpha-beta min_value with root window (minus infinity, plus infinity). -/
def abMakeMove {S : Type} (G : GameSpec S) (pid d : ℤ) (g : S) (st : MMState) :
    Option ((ℕ × Val) × MMState) :=
  match G.trans pid g with
  | [] => none
  | (a, s, k) :: rest =>
    let r := abMinValue G pid s k (d - 1) Val.ninf Val.pinf st
    some (abArgmaxLoop G pid d rest (a, r.1) r.2)

/-!
Monte Carlo RL agent (class MonteCarloRLPlayer). The state-value table keys
are the hashable canonical representations, embedded as integers; learned
values, gamma and alpha are embedded as rationals.
-/

/-- StateValueTable: the underlying dict of self._state_values, embedded as
an association list where a store prepends and a lookup takes the first
match. -/
abbrev Table : Type := List (ℤ × ℚ)

/-- Dict lookup returning the stored value when the key is present. -/
def lookupV (V : Table) (k : ℤ) : Option ℚ :=
  (V.find? (fun p => p.1 == k)).map (·.2)

/-- Membership test key in self._state_values. -/
def memV (V : Table) (k : ℤ) : Bool := (lookupV V k).isSome

/-- Dict store self._state_values[key] = q. -/
def setV (V : Table) (k : ℤ) (q : ℚ) : Table := (k, q) :: V

/-- Value read self._state_values[key] as a pure value: the stored value, or
the default 0 of the float factory for an unseen key. -/
def getV (V : Table) (k : ℤ) : ℚ := (lookupV V k).getD 0

/-- Modelled from the spec: class MissNoAddDict of investigate_game.py is not
under src/. Per the spec (section 3, StateValueTable): default value 0 for
unseen keys, and the default must be materialized as a real zero entry on
first read, not merely returned transiently. Reading an unseen key therefore
returns 0 and inserts the entry; reading a present key returns it unchanged. -/
def svRead (V : Table) (k : ℤ) : ℚ × Table :=
  match lookupV V k with
  | some q => (q, V)
  | none => (0, setV V k 0)

/-- Canonical key of a successor state in monte_carlo_rl.py: the minimum of
the hashable representations of all symmetry-transformed states, from the
acting player's perspective (min over
Symmetry.get_transformed_states  followed by get_hashable_state). -/
def canonKey {S : Type} (G : GameSpec S) (pid : ℤ) (s : S) : ℤ :=
  match (G.symm s).map (G.hkey pid) with
  | [] => 0
  | x :: xs => xs.foldl min x

/-- Python max(list, key = f) on a pure key function: the first element
attaining the maximal key, or none for an empty list (Python raises). -/
def pyMaxBy {A : Type} (f : A → ℚ) : List A → Option A
  | [] => none
  | x :: xs => some (xs.foldl (fun b y => if f b < f y then y else b) x)

/-- MonteCarloRLPlayer.make_move: enumerate the transitions of the current
player, compute the canonical key of every successor, then choose greedily
over the table when at least one canonical key is known, else uniformly at
random; the random draw of Python choice(transitions) is supplied as an
oracle index reduced modulo the number of transitions. An empty transition
enumeration makes Python choice raise, embedded as none. -/
def mcMakeMove {S : Type} (G : GameSpec S) (V : Table) (choiceIdx : ℕ)
    (g : S) : Option ℕ :=
  let pid := G.curPlayer g
  let ts := G.trans pid g
  let cts := ts.map (fun t => (t.1, canonKey G pid t.2.1))
  if cts.any (fun t => memV V t.2) then
    (pyMaxBy (fun t => getV V t.2) cts).map (·.1)
  else
    (ts.get? (choiceIdx % ts.length)).map (·.1)

/-- MonteCarloRLPlayer._game_reward(player, winner): -1 when no one wins,
10 when the passed player object is the agent itself, -10 otherwise. The
call site in train passes the player who made the last move of the episode,
so the first argument records whether the agent moved last. -/
def game_reward (lastMoverIsSelf : Bool) (winner : ℤ) : ℤ :=
  if winner = -1 then -1
  else if lastMoverIsSelf then 10
  else -10

/-- MonteCarloRLPlayer._update_state_values(state_repr_index, g):
V[k] = V[k] + alpha * (g - V[k]). -/
def update_state_values (alpha : ℚ) (V : Table) (k : ℤ) (g : ℚ) : Table :=
  setV V k (getV V k + alpha * (g - getV V k))

/-- Backward return accumulation at the end of train, exactly as coded:
return_of_rewards = 0, then for every (key, reward) of the reversed
trajectory, return_of_rewards = reward + gamma * return_of_rewards followed
by the state-value update; the running return and the final table are
produced. -/
def codeBackprop (gamma alpha : ℚ) (traj : List (ℤ × ℚ)) (V : Table) :
    ℚ × Table :=
  traj.reverse.foldl
    (fun acc p =>
      let g := p.2 + gamma * acc.1
      (g, update_state_values alpha acc.2 p.1 g))
    (0, V)

/-- Discounted return of a trajectory read from its first entry: the head
reward plus gamma times the return of the tail (so the value the loop of
codeBackprop holds when it reaches an entry is the discounted return of the
suffix starting there). -/
def discountedReturn (gamma : ℚ) : List (ℤ × ℚ) → ℚ
  | [] => 0
  | p :: rest => p.2 + gamma * discountedReturn gamma rest

/-- Specification-side formulation of the backward walk (section 4.4 of the
spec): every entry is updated exactly once, from the last entry to the first,
toward the discounted return of the trajectory suffix beginning at it. -/
def specBackprop (gamma alpha : ℚ) : List (ℤ × ℚ) → Table → Table
  | [], V => V
  | p :: rest, V =>
    update_state_values alpha (specBackprop gamma alpha rest V) p.1
      (p.2 + gamma * discountedReturn gamma rest)

/-- Exploration rate after the episode with 0-based index i, as assigned at
the end of every iteration of train:
np.clip(np.exp(-decay * episode), minRate, 1), with np.clip(x, lo, hi)
equal to min(max(x, lo), hi). -/
noncomputable def explorationRateAfter (decay minRate : ℝ) (i : ℕ) : ℝ :=
  min (max (Real.exp (-decay * i)) minRate) 1

/-!
Concrete instances of the abstract rules-engine interface, used by the
counterexamples and witnesses below. States are naturals; the transition
tables are finite by construction.
-/

/-- Concrete game for the engine-comparison counterexample. The max player
is 0 and the search depth is 2. From the root (state 0) two moves exist:
action 1 to state 1 (key 100) and action 2 to state 2 (key 6). State 1 has
two replies: to state 11 (key 5), a terminal win of player 1, and to state
12 (key 6), a quiet state of score 4. State 2 has one reply, to state 21
(key 7), also of score 4. The key 6 is shared by state 12 keyed from the
perspective of mover 1 and state 2 keyed from the perspective of mover 0:
the two boards are colour swaps of one another, so their hashable
representations from the two perspectives coincide. -/
def cexC1 : GameSpec ℕ where
  winner := fun s => if s = 11 then 1 else -1
  board := fun s => if s = 12 ∨ s = 21 then [[0]] else [[-1]]
  trans := fun pid s =>
    if pid = 0 ∧ s = 0 then [(1, 1, 100), (2, 2, 6)]
    else if pid = 1 ∧ s = 1 then [(0, 11, 5), (0, 12, 6)]
    else if pid = 1 ∧ s = 2 then [(0, 21, 7)]
    else []
  symm := fun s => [s]
  hkey := fun _ s => (s : ℤ)
  curPlayer := fun _ => 0

/-- Concrete game for the cache-key evaluation of the plain engine: from
state 0 (key 10) a single move of player 0, action 0, reaches state 1
(key 20), a quiet state of score 4. -/
def cexC2 : GameSpec ℕ where
  winner := fun _ => -1
  board := fun s => if s = 1 then [[0]] else [[-1]]
  trans := fun pid s => if pid = 0 ∧ s = 0 then [(0, 1, 20)] else []
  symm := fun s => [s]
  hkey := fun _ s => (s : ℤ)
  curPlayer := fun _ => 0

/-!
Helper lemmas about the board lines of the static evaluation.
-/

/-- Every cell of every board line is a cell of the board itself, provided
the board is square (so that no out-of-range default is ever consulted). -/
theorem boardLines_forall {P : ℤ → Prop} {b : List (List ℤ)}
    (hsq : ∀ r ∈ b, r.length = b.length)
    (hP : ∀ r ∈ b, ∀ c ∈ r, P c) :
    ∀ l ∈ boardLines b, ∀ c ∈ l, P c := by
  intro l hl c hc
  unfold boardLines at hl
  simp only [List.mem_append, List.mem_singleton, List.mem_map, List.mem_range] at hl
  rcases hl with ((hl | ⟨x, hx, rfl⟩) | rfl) | rfl
  · exact hP l hl c hc
  · simp only [List.mem_map] at hc
    obtain ⟨r, hr, rfl⟩ := hc
    have hb : b ≠ [] := by rintro rfl; simp at hr
    have hhead : (b.headD []).length = b.length := by
      cases b with
      | nil => exact absurd rfl hb
      | cons r0 t => exact hsq r0 (by simp)
    have hxr : x < r.length := by rw [hsq r hr]; omega
    rw [List.getD_eq_getElem?_getD, List.getElem?_eq_getElem hxr, Option.getD_some]
    exact hP r hr _ (List.getElem_mem hxr)
  · simp only [List.mem_map, List.mem_range] at hc
    obtain ⟨y, hy, rfl⟩ := hc
    have hmem : b.getD y [] ∈ b := by
      rw [List.getD_eq_getElem?_getD, List.getElem?_eq_getElem hy, Option.getD_some]
      exact List.getElem_mem hy
    have hyr : y < (b.getD y []).length := by rw [hsq _ hmem]; omega
    rw [List.getD_eq_getElem?_getD (b.getD y []), List.getElem?_eq_getElem hyr,
      Option.getD_some]
    exact hP _ hmem _ (List.getElem_mem hyr)
  · simp only [List.mem_map, List.mem_range] at hc
    obtain ⟨y, hy, rfl⟩ := hc
    have hmem : b.getD y [] ∈ b := by
      rw [List.getD_eq_getElem?_getD, List.getElem?_eq_getElem hy, Option.getD_some]
      exact List.getElem_mem hy
    have hyr : (b.getD y []).length - 1 - y < (b.getD y []).length := by
      rw [hsq _ hmem]; omega
    rw [List.getD_eq_getElem?_getD (b.getD y []), List.getElem?_eq_getElem hyr,
      Option.getD_some]
    exact hP _ hmem _ (List.getElem_mem hyr)

/-- A square N by N board yields 2N + 2 lines: N rows, N columns and the two
diagonals. -/
theorem boardLines_length {b : List (List ℤ)}
    (hsq : ∀ r ∈ b, r.length = b.length) :
    (boardLines b).length = 2 * b.length + 2 := by
  unfold boardLines
  cases b with
  | nil => simp
  | cons r0 t =>
    have h0 : r0.length = (r0 :: t).length := hsq r0 (by simp)
    simp [h0]
    omega

/-- C5: evaluation_function returns plus infinity for a terminal state won
by the max player and minus infinity for one won by the min player; on every
other state it returns the number of the 2N + 2 board lines containing no
min-player cell minus the number of lines containing no max-player cell, and
in particular 0 on a fully empty N by N board. -/
theorem c5_evaluation_function {S : Type} (G : GameSpec S) (pid : ℤ) (g : S)
    (n : ℕ) (hpid : pid = 0 ∨ pid = 1) :
    (G.winner g = pid → evaluation_function G pid g = Val.pinf)
    ∧ (G.winner g = oppId pid → evaluation_function G pid g = Val.ninf)
    ∧ ((∀ r ∈ G.board g, r.length = (G.board g).length) →
        (∀ r ∈ G.board g, ∀ c ∈ r, c = pid ∨ c = oppId pid ∨ c = -1) →
        G.winner g ≠ pid → G.winner g ≠ oppId pid →
        evaluation_function G pid g =
          Val.fin
            (((boardLines (G.board g)).countP
                (fun l => l.all (fun c => !(c == oppId pid))) : ℤ)
              - ((boardLines (G.board g)).countP
                  (fun l => l.all (fun c => !(c == pid))) : ℤ)))
    ∧ ((∀ r ∈ G.board g, r.length = (G.board g).length) →
        (boardLines (G.board g)).length = 2 * (G.board g).length + 2)
    ∧ (G.board g = List.replicate n (List.replicate n (-1)) →
        G.winner g ≠ pid → G.winner g ≠ oppId pid →
        evaluation_function G pid g = Val.fin 0) := by
  have hopp : oppId pid = 1 - pid := by
    rcases hpid with rfl | rfl <;> decide
  have hne : pid ≠ oppId pid := by rw [hopp]; omega
  refine ⟨?_, ?_, ?_, ?_, ?_⟩
  · intro hw
    unfold evaluation_function
    rw [if_pos hw]
  · intro hw
    unfold evaluation_function
    rw [if_neg (by rw [hw]; exact fun h => hne h.symm), if_pos hw]
  · intro hsq hcells hw1 hw2
    unfold evaluation_function
    simp only [if_neg hw1, if_neg hw2]
    have hvalid := boardLines_forall (P := fun c => c = pid ∨ c = oppId pid ∨ c = -1)
      hsq hcells
    have h1 : (boardLines (G.board g)).countP (fun l => lineOpen pid l)
        = (boardLines (G.board g)).countP (fun l => l.all (fun c => !(c == oppId pid))) := by
      refine List.countP_congr (fun l hl => ?_)
      simp only [lineOpen, List.all_eq_true, Bool.or_eq_true, beq_iff_eq,
        Bool.not_eq_true', beq_eq_false_iff_ne, ne_eq, decide_eq_true_eq]
      constructor
      · intro h c hc
        have h3 := h c hc
        rw [hopp]
        rcases hpid with rfl | rfl <;> omega
      · intro h c hc
        rcases hvalid l hl c hc with h' | h' | h'
        · exact Or.inl h'
        · exact absurd h' (h c hc)
        · exact Or.inr h'
    have h2 : (boardLines (G.board g)).countP (fun l => lineOpen (oppId pid) l)
        = (boardLines (G.board g)).countP (fun l => l.all (fun c => !(c == pid))) := by
      refine List.countP_congr (fun l hl => ?_)
      simp only [lineOpen, List.all_eq_true, Bool.or_eq_true, beq_iff_eq,
        Bool.not_eq_true', beq_eq_false_iff_ne, ne_eq, decide_eq_true_eq]
      constructor
      · intro h c hc
        have h3 := h c hc
        rw [hopp] at h3
        rcases hpid with rfl | rfl <;> omega
      · intro h c hc
        rcases hvalid l hl c hc with h' | h' | h'
        · exact absurd h' (h c hc)
        · exact Or.inl h'
        · exact Or.inr h'
    rw [h1, h2]
  · intro hsq
    exact boardLines_length hsq
  · intro hb hw1 hw2
    unfold evaluation_function
    simp only [if_neg hw1, if_neg hw2]
    have hcells : ∀ l ∈ boardLines (G.board g), ∀ c ∈ l, c = -1 := by
      refine boardLines_forall (P := fun c => c = -1) ?_ ?_
      · intro r hr
        rw [hb] at hr ⊢
        rw [List.eq_of_mem_replicate hr]
        simp
      · intro r hr c hc
        rw [hb] at hr
        rw [List.eq_of_mem_replicate hr] at hc
        exact List.eq_of_mem_replicate hc
    have hall : ∀ p : ℤ, (boardLines (G.board g)).countP (fun l => lineOpen p l)
        = (boardLines (G.board g)).length := by
      intro p
      rw [List.countP_eq_length]
      intro l hl
      simp only [lineOpen, List.all_eq_true, Bool.or_eq_true, beq_iff_eq]
      intro c hc
      exact Or.inr (hcells l hl c hc)
    rw [hall pid, hall (oppId pid)]
    simp

/-- Witness for C5: the theorem applied to the concrete game cexC1 at its
root, a fully empty 1 by 1 board with no winner, giving score 0. -/
theorem c5_evaluation_function_witness : evaluation_function cexC1 0 0 = Val.fin 0 :=
  (c5_evaluation_function cexC1 0 0 1 (Or.inl rfl)).2.2.2.2 (by decide) (by decide)
    (by decide)

/-- C3: in both engines and both roles, when the queried key is present in
the role-appropriate cache with a stored searchedDepth at least the requested
depth, the call returns the previously stored value immediately, records a
cache hit, and leaves both caches unchanged without enumerating or recursing
into any transition: the result does not depend on the game, the state or
the alpha-beta bounds at all. -/
theorem c3_cache_hit {S : Type} (G : GameSpec S) (pid : ℤ) (g : S)
    (key d : ℤ) (alpha beta : Val) (st : MMState) (v : Val) :
    (probe st.visitedMax key d = some v →
      mmMaxValue G pid g key d st = (v, st.hitInc)
      ∧ abMaxValue G pid g key d alpha beta st = (v, st.hitInc))
    ∧ (probe st.visitedMin key d = some v →
      mmMinValue G pid g key d st = (v, st.hitInc)
      ∧ abMinValue G pid g key d alpha beta st = (v, st.hitInc)) := by
  constructor <;> intro h <;> constructor <;>
    simp only [mmMaxValue, abMaxValue, mmMinValue, abMinValue, h]

/-- Witness for C3: a concrete max-role cache holding key 10 at depth 2 and
value 3 answers a depth-1 query with the stored value and one more hit. -/
theorem c3_cache_hit_witness :
    mmMaxValue cexC1 0 0 10 1 ⟨[(10, ⟨2, Val.fin 3⟩)], [], 0⟩
      = (Val.fin 3, MMState.hitInc ⟨[(10, ⟨2, Val.fin 3⟩)], [], 0⟩) :=
  ((c3_cache_hit cexC1 0 0 10 1 Val.ninf Val.pinf
    ⟨[(10, ⟨2, Val.fin 3⟩)], [], 0⟩ (Val.fin 3)).1 (by decide)).1

/-- C4: in the alpha-beta max_value loop, as soon as the best value reaches
beta after a child evaluation, the result is returned at once with the best
value cached at searchedDepth equal to the querying depth, and the remaining
transitions are never examined (the result is independent of them);
symmetrically in min_value with the cutoff at alpha. -/
theorem c4_cutoff {S : Type} (G : GameSpec S) (pid : ℤ) (a : ℕ) (s : S)
    (k lastKey : ℤ) (best alpha beta : Val) (dp dc : ℤ) (st st1 : MMState)
    (v : Val) :
    (abMinValue G pid s k dc alpha beta st = (v, st1) →
      Val.ble beta (if Val.blt best v then v else best) = true →
      ∀ rest, abMaxLoop G pid ((a, s, k) :: rest) best lastKey alpha beta dp dc st
        = (if Val.blt best v then v else best,
           st1.storeMax k ⟨dp, if Val.blt best v then v else best⟩))
    ∧ (abMaxValue G pid s k dc alpha beta st = (v, st1) →
      Val.ble (if Val.blt v best then v else best) alpha = true →
      ∀ rest, abMinLoop G pid ((a, s, k) :: rest) best lastKey alpha beta dp dc st
        = (if Val.blt v best then v else best,
           st1.storeMin k ⟨dp, if Val.blt v best then v else best⟩)) := by
  constructor <;> intro h1 h2 rest <;>
    simp only [abMaxLoop, abMinLoop, h1, h2, if_true]

/-- Witness for C4: in the game cexC1, one child reaching value minus
infinity with beta equal to minus infinity triggers the cutoff: the loop
returns at once and stores the best value at depth 1 under the child key 5,
whatever transitions would have followed. -/
theorem c4_cutoff_witness :
    abMaxLoop cexC1 0 [(0, 11, 5)] Val.ninf 100 Val.ninf Val.ninf 1 0 MMState.empty
      = (if Val.blt Val.ninf Val.ninf then Val.ninf else Val.ninf,
         (MMState.empty.storeMin 5 ⟨0, Val.ninf⟩).storeMax 5
           ⟨1, if Val.blt Val.ninf Val.ninf then Val.ninf else Val.ninf⟩) :=
  (c4_cutoff cexC1 0 0 11 5 100 Val.ninf Val.ninf Val.ninf 1 0 MMState.empty
    (MMState.empty.storeMin 5 ⟨0, Val.ninf⟩) Val.ninf).1
    (by simp [abMinValue, probe, cacheLookup, cexC1, evaluation_function, oppId,
      MMState.empty, MMState.storeMin, cacheStore])
    (by decide) []

/-- C2: evaluation of the plain engine at the failing input of the claim.
In cexC2, max_value is queried at state 0 with key 10 and depth 1; the state
is quiet and has exactly one transition, to state 1 with key 20 and static
score 4. The call returns 4 as the claim says, but because the loop variable
named key shadows the parameter, the depth-1 result is stored under the
child key 20 while the queried key 10 is left unmapped in the max cache. -/
theorem c2_shadowed_store :
    (mmMaxValue cexC2 0 0 10 1 MMState.empty).1 = Val.fin 4
    ∧ cacheLookup (mmMaxValue cexC2 0 0 10 1 MMState.empty).2.visitedMax 10 = none
    ∧ cacheLookup (mmMaxValue cexC2 0 0 10 1 MMState.empty).2.visitedMax 20
        = some ⟨1, Val.fin 4⟩ := by
  have h : mmMaxValue cexC2 0 0 10 1 MMState.empty
      = (Val.fin 4, ⟨[(20, ⟨1, Val.fin 4⟩)], [(20, ⟨0, Val.fin 4⟩)], 0⟩) := by
    simp [mmMaxValue, mmMaxLoop, mmMinValue, mmMinLoop, cexC2, probe, cacheLookup,
      cacheStore, MMState.empty, MMState.storeMax, MMState.storeMin, MMState.hitInc,
      evaluation_function, boardLines, lineOpen, oppId, vmax, vmin, Val.ble, Val.blt,
      List.range_succ, List.countP_append, List.countP_cons]
  rw [h]
  refine ⟨rfl, by decide, by decide⟩

/-- Helper for C1: at a non-positive remaining depth, the alpha-beta
min_value coincides with the plain min_value whatever the bounds are: both
either answer from the min cache or evaluate and store the leaf. -/
theorem abMinValue_leaf_eq {S : Type} (G : GameSpec S) (pid : ℤ) (s : S)
    (k d : ℤ) (alpha beta : Val) (st : MMState) (hd : d ≤ 0) :
    abMinValue G pid s k d alpha beta st = mmMinValue G pid s k d st := by
  cases hp : probe st.visitedMin k d with
  | some v => simp only [abMinValue, mmMinValue, hp]
  | none =>
    simp only [abMinValue, mmMinValue, hp]
    rw [dif_pos (Or.inl hd), dif_pos (Or.inl hd)]

/-- Helper for C1: the two root selection loops coincide when the root
children are evaluated at non-positive depth. -/
theorem abArgmaxLoop_leaf_eq {S : Type} (G : GameSpec S) (pid d : ℤ)
    (ts : List (ℕ × S × ℤ)) (best : ℕ × Val) (st : MMState) (hd : d ≤ 1) :
    abArgmaxLoop G pid d ts best st = mmArgmaxLoop G pid d ts best st := by
  induction ts generalizing best st with
  | nil => rfl
  | cons t rest ih =>
    obtain ⟨a, s, k⟩ := t
    simp only [abArgmaxLoop, mmArgmaxLoop,
      abMinValue_leaf_eq G pid s k (d - 1) Val.ninf Val.pinf st (by omega)]
    exact ih _ _

/-- C1 (amended): for every game, player id, state and starting caches, when
the configured depth D is at most 1 — so that every root child is evaluated
as a leaf — MinMaxPlayer.make_move and AlphaBetaMinMaxPlayer.make_move agree
on the chosen action, on the root search value computed for it, and even on
the final caches. For D greater than 1 the two engines can disagree, see the
counterexample. -/
theorem c1_amended {S : Type} (G : GameSpec S) (pid d : ℤ) (g : S)
    (st : MMState) (hd : d ≤ 1) :
    mmMakeMove G pid d g st = abMakeMove G pid d g st := by
  cases ht : G.trans pid g with
  | nil => simp only [mmMakeMove, abMakeMove, ht]
  | cons t rest =>
    obtain ⟨a, s, k⟩ := t
    simp only [mmMakeMove, abMakeMove, ht,
      abMinValue_leaf_eq G pid s k (d - 1) Val.ninf Val.pinf st (by omega),
      abArgmaxLoop_leaf_eq G pid d rest _ _ hd]

/-- Witness for C1 (amended): the two engines, freshly constructed with
player id 0 and depth 1, agree on the concrete game cexC1. -/
theorem c1_amended_witness :
    mmMakeMove cexC1 0 1 0 MMState.empty = abMakeMove cexC1 0 1 0 MMState.empty :=
  c1_amended cexC1 0 1 0 MMState.empty (by norm_num)

/-- Counterexample to C1 as stated: in the concrete game cexC1, with the
same player id 0 and the same depth 2, both engines freshly constructed and
symmetry reduction disabled, the plain MinMax engine chooses action 1 with
root value minus infinity while the alpha-beta engine chooses action 2 with
root value 4. The first root subtree stores, under the shadowed loop key 6,
a depth-1 entry in the min cache in the plain engine only (the alpha-beta
engine cuts that loop off earlier and stores under key 5), and the second
root child is keyed 6 as well, so the plain engine answers it from the
cache entry while the alpha-beta engine searches it. -/
theorem c1_counterexample :
    (mmMakeMove cexC1 0 2 0 MMState.empty).map (fun r => r.1) = some (1, Val.ninf)
    ∧ (abMakeMove cexC1 0 2 0 MMState.empty).map (fun r => r.1) = some (2, Val.fin 4)
    ∧ (1 : ℕ) ≠ 2 := by
  refine ⟨?_, ?_, by decide⟩ <;>
  simp [mmMakeMove, mmArgmaxLoop, mmMaxValue, mmMaxLoop, mmMinValue, mmMinLoop,
    abMakeMove, abArgmaxLoop, abMaxValue, abMaxLoop, abMinValue, abMinLoop,
    cexC1, probe, cacheLookup, cacheStore, MMState.empty, MMState.storeMax,
    MMState.storeMin, MMState.hitInc, evaluation_function, boardLines, lineOpen,
    oppId, vmax, vmin, Val.ble, Val.blt, List.range_succ, List.countP_append,
    List.countP_cons]

/-- C6: the coded backward walk of the trajectory (reversed iteration with
the running return updated as reward plus gamma times the return, then the
constant-step value update) computes, for every entry, exactly the
discounted return of the trajectory suffix beginning at that entry, updates
the table once per entry occurrence, and its running return ends as the
discounted return of the whole trajectory. -/
theorem c6_backprop (gamma alpha : ℚ) (traj : List (ℤ × ℚ)) (V : Table) :
    codeBackprop gamma alpha traj V
      = (discountedReturn gamma traj, specBackprop gamma alpha traj V)
    ∧ (specBackprop gamma alpha traj V).length = traj.length + V.length := by
  constructor
  · induction traj with
    | nil => rfl
    | cons p rest ih =>
      have h1 : codeBackprop gamma alpha (p :: rest) V
          = (p.2 + gamma * (codeBackprop gamma alpha rest V).1,
             update_state_values alpha (codeBackprop gamma alpha rest V).2 p.1
               (p.2 + gamma * (codeBackprop gamma alpha rest V).1)) := by
        simp [codeBackprop, List.foldl_append]
      rw [h1, ih]
      rfl
  · induction traj with
    | nil => simp [specBackprop]
    | cons p rest ih =>
      simp only [specBackprop, update_state_values, setV, List.length_cons, ih,
        List.length_cons]
      omega

/-- C7: evaluation of the terminal-reward computation of the training loop.
The first argument of game_reward records whether the agent made the last
move of the episode, which is what the call site passes for the parameter
documented as the winning player. With the agent as player 0: when the agent
moved last but the reported winner is the opponent (id 1), the code records
plus 10; when the opponent moved last but the reported winner is the agent
(id 0), the code records minus 10. The range of recorded rewards is
nevertheless contained in the set of minus 10, minus 1 and plus 10. -/
theorem c7_game_reward_eval :
    game_reward true 1 = 10
    ∧ game_reward false 0 = -10
    ∧ (∀ (b : Bool) (w : ℤ),
        game_reward b w = -10 ∨ game_reward b w = -1 ∨ game_reward b w = 10) := by
  refine ⟨by decide, by decide, ?_⟩
  intro b w
  unfold game_reward
  split_ifs <;> simp

/-- C8: after the episode with 0-based index i the exploration rate equals
exp(-decayRate * i) clamped to the interval from minExplorationRate to 1;
for a non-negative decay rate and a floor at most 1, the rate always lies in
that interval and the sequence is monotonically non-increasing. -/
theorem c8_exploration_rate (decay minRate : ℝ) (i : ℕ)
    (hd : 0 ≤ decay) (hm : minRate ≤ 1) :
    explorationRateAfter decay minRate i
      = min (max (Real.exp (-decay * i)) minRate) 1
    ∧ minRate ≤ explorationRateAfter decay minRate i
    ∧ explorationRateAfter decay minRate i ≤ 1
    ∧ explorationRateAfter decay minRate (i + 1)
        ≤ explorationRateAfter decay minRate i := by
  refine ⟨rfl, ?_, ?_, ?_⟩
  · exact le_min (le_max_right _ _) hm
  · exact min_le_right _ _
  · unfold explorationRateAfter
    have hexp : Real.exp (-decay * ((i : ℕ) + 1 : ℕ)) ≤ Real.exp (-decay * i) := by
      apply Real.exp_le_exp.mpr
      push_cast
      nlinarith
    exact min_le_min (max_le_max hexp le_rfl) le_rfl

/-- Witness for C8: the schedule with decay rate 1 and floor 0, at episode 0. -/
theorem c8_exploration_rate_witness :
    explorationRateAfter 1 0 0 = min (max (Real.exp (-1 * (0 : ℕ))) 0) 1
    ∧ (0 : ℝ) ≤ explorationRateAfter 1 0 0
    ∧ explorationRateAfter 1 0 0 ≤ 1
    ∧ explorationRateAfter 1 0 (0 + 1) ≤ explorationRateAfter 1 0 0 :=
  c8_exploration_rate 1 0 0 zero_le_one zero_le_one

/-- Membership in a table is preserved by prepending an entry for any key. -/
theorem memV_cons_of_memV (W : Table) (k3 k2 : ℤ) (q : ℚ)
    (hm : memV W k2 = true) : memV ((k3, q) :: W) k2 = true := by
  unfold memV lookupV at *
  rw [List.find?_cons]
  cases hb : (k3 == k2) <;> simp [hb]
  · simpa using hm

/-- C9: reading the state-value table at an unseen key returns the default 0
and materializes a real zero entry for the key; membership, once
established, survives any later default read or store; and whenever the
membership test of make_move over the canonical keys of the successor
states succeeds, make_move selects the greedy maximiser of the table values
rather than a random transition. -/
theorem c9_state_value_default {S : Type} (G : GameSpec S) (g : S)
    (V W : Table) (k k2 k3 : ℤ) (q : ℚ) (ch : ℕ)
    (h : lookupV V k = none) :
    (svRead V k).1 = 0
    ∧ memV (svRead V k).2 k = true
    ∧ (memV W k2 = true →
        memV (svRead W k3).2 k2 = true ∧ memV (setV W k3 q) k2 = true)
    ∧ (((G.trans (G.curPlayer g) g).map
          (fun t => (t.1, canonKey G (G.curPlayer g) t.2.1))).any
            (fun t => memV W t.2) = true →
        mcMakeMove G W ch g
          = (pyMaxBy (fun t => getV W t.2)
              ((G.trans (G.curPlayer g) g).map
                (fun t => (t.1, canonKey G (G.curPlayer g) t.2.1)))).map (·.1)) := by
  refine ⟨?_, ?_, ?_, ?_⟩
  · simp [svRead, h]
  · simp only [svRead, h, setV]
    simp [memV, lookupV, List.find?_cons]
  · intro hm
    constructor
    · cases hp : lookupV W k3 with
      | some q0 => simpa [svRead, hp] using hm
      | none =>
        simp only [svRead, hp, setV]
        exact memV_cons_of_memV W k3 k2 0 hm
    · exact memV_cons_of_memV W k3 k2 q hm
  · intro hany
    simp only [mcMakeMove]
    rw [if_pos hany]

/-- Witness for C9: the empty table misses key 5, the read materializes it;
a table holding key 1 keeps it through a default read at key 9 and a store
at key 9; and with key 1 known among the successor canonical keys of the
root of cexC1, make_move takes the greedy branch. -/
theorem c9_state_value_default_witness :
    (svRead [] 5).1 = 0
    ∧ memV (svRead [] 5).2 5 = true
    ∧ (memV (svRead [(1, 5)] 9).2 1 = true ∧ memV (setV [(1, 5)] 9 1) 1 = true)
    ∧ mcMakeMove cexC1 [(1, 5)] 0 0
        = (pyMaxBy (fun t => getV [(1, 5)] t.2)
            ((cexC1.trans (cexC1.curPlayer 0) 0).map
              (fun t => (t.1, canonKey cexC1 (cexC1.curPlayer 0) t.2.1)))).map (·.1) := by
  have h := c9_state_value_default cexC1 0 [] [(1, 5)] 5 1 9 1 0 (by decide)
  exact ⟨h.1, h.2.1, h.2.2.1 (by decide), h.2.2.2 (by decide)⟩

/-- Helper for C10: the root selection loop of the plain engine only ever
returns the accumulator action or an action of the remaining transitions. -/
theorem mmArgmaxLoop_mem {S : Type} (G : GameSpec S) (pid d : ℤ)
    (ts : List (ℕ × S × ℤ)) (best : ℕ × Val) (st : MMState) :
    (mmArgmaxLoop G pid d ts best st).1.1 = best.1
    ∨ (mmArgmaxLoop G pid d ts best st).1.1 ∈ ts.map (fun t => t.1) := by
  induction ts generalizing best st with
  | nil => exact Or.inl rfl
  | cons t rest ih =>
    obtain ⟨a, s, k⟩ := t
    simp only [mmArgmaxLoop]
    rcases ih (if Val.blt best.2 (mmMinValue G pid s k (d - 1) st).1
        then (a, (mmMinValue G pid s k (d - 1) st).1) else best)
        (mmMinValue G pid s k (d - 1) st).2 with h | h
    · rw [h]
      cases hb : Val.blt best.2 (mmMinValue G pid s k (d - 1) st).1
      · simp [hb]
      · simp [hb]
    · exact Or.inr (by simp only [List.map_cons, List.mem_cons]; exact Or.inr h)

/-- Helper for C10: the same membership property for the alpha-beta root
selection loop. -/
theorem abArgmaxLoop_mem {S : Type} (G : GameSpec S) (pid d : ℤ)
    (ts : List (ℕ × S × ℤ)) (best : ℕ × Val) (st : MMState) :
    (abArgmaxLoop G pid d ts best st).1.1 = best.1
    ∨ (abArgmaxLoop G pid d ts best st).1.1 ∈ ts.map (fun t => t.1) := by
  induction ts generalizing best st with
  | nil => exact Or.inl rfl
  | cons t rest ih =>
    obtain ⟨a, s, k⟩ := t
    simp only [abArgmaxLoop]
    rcases ih (if Val.blt best.2 (abMinValue G pid s k (d - 1) Val.ninf Val.pinf st).1
        then (a, (abMinValue G pid s k (d - 1) Val.ninf Val.pinf st).1) else best)
        (abMinValue G pid s k (d - 1) Val.ninf Val.pinf st).2 with h | h
    · rw [h]
      cases hb : Val.blt best.2 (abMinValue G pid s k (d - 1) Val.ninf Val.pinf st).1
      · simp [hb]
      · simp [hb]
    · exact Or.inr (by simp only [List.map_cons, List.mem_cons]; exact Or.inr h)

/-- Helper for C10: the Python max over a list with a key function returns
an element of the list. -/
theorem pyMaxBy_mem {A : Type} (f : A → ℚ) (l : List A) (x : A)
    (h : pyMaxBy f l = some x) : x ∈ l := by
  cases l with
  | nil => simp [pyMaxBy] at h
  | cons y ys =>
    simp only [pyMaxBy, Option.some.injEq] at h
    subst h
    have hfold : ∀ (zs : List A) (acc : A),
        zs.foldl (fun b z => if f b < f z then z else b) acc = acc
        ∨ zs.foldl (fun b z => if f b < f z then z else b) acc ∈ zs := by
      intro zs
      induction zs with
      | nil => exact fun acc => Or.inl rfl
      | cons z zs ih =>
        intro acc
        simp only [List.foldl_cons]
        rcases ih (if f acc < f z then z else acc) with h | h
        · rw [h]
          cases hb : decide (f acc < f z)
          · simp only [decide_eq_false_iff_not] at hb
            rw [if_neg hb]
            exact Or.inl rfl
          · simp only [decide_eq_true_eq] at hb
            rw [if_pos hb]
            exact Or.inr (List.mem_cons_self z zs)
        · exact Or.inr (List.mem_cons_of_mem z h)
    rcases hfold ys y with h | h
    · rw [h]; exact List.mem_cons_self y ys
    · exact List.mem_cons_of_mem y h

/-- C10: every public move-selection entry point returns an action drawn
from the enumerated transitions whenever that enumeration is non-empty, and
signals the Python exception (embedded as none) when it is empty: MinMax and
AlphaBeta make_move fail on the tuple unpacking, the Monte Carlo make_move
on the random choice from an empty sequence. -/
theorem c10_make_move {S : Type} (G : GameSpec S) (pid d : ℤ) (g : S)
    (st : MMState) (V : Table) (ch : ℕ) :
    (G.trans pid g = [] →
      mmMakeMove G pid d g st = none ∧ abMakeMove G pid d g st = none)
    ∧ (G.trans (G.curPlayer g) g = [] → mcMakeMove G V ch g = none)
    ∧ (G.trans pid g ≠ [] →
      (∃ r, mmMakeMove G pid d g st = some r
        ∧ r.1.1 ∈ (G.trans pid g).map (fun t => t.1))
      ∧ (∃ r, abMakeMove G pid d g st = some r
        ∧ r.1.1 ∈ (G.trans pid g).map (fun t => t.1)))
    ∧ (G.trans (G.curPlayer g) g ≠ [] →
      ∃ a, mcMakeMove G V ch g = some a
        ∧ a ∈ (G.trans (G.curPlayer g) g).map (fun t => t.1)) := by
  refine ⟨?_, ?_, ?_, ?_⟩
  · intro ht
    constructor <;> simp [mmMakeMove, abMakeMove, ht]
  · intro ht
    simp [mcMakeMove, ht]
  · intro ht
    obtain ⟨⟨a, s, k⟩, rest, hts⟩ : ∃ t rest, G.trans pid g = t :: rest := by
      cases hts : G.trans pid g with
      | nil => exact absurd hts ht
      | cons t rest => exact ⟨t, rest, rfl⟩
    constructor
    · refine ⟨mmArgmaxLoop G pid d rest
        (a, (mmMinValue G pid s k (d - 1) st).1) (mmMinValue G pid s k (d - 1) st).2,
        ?_, ?_⟩
      · simp [mmMakeMove, hts]
      · rcases mmArgmaxLoop_mem G pid d rest
            (a, (mmMinValue G pid s k (d - 1) st).1)
            (mmMinValue G pid s k (d - 1) st).2 with h | h
        · rw [h, hts]
          simp
        · rw [hts]
          simp only [List.map_cons, List.mem_cons]
          exact Or.inr h
    · refine ⟨abArgmaxLoop G pid d rest
        (a, (abMinValue G pid s k (d - 1) Val.ninf Val.pinf st).1)
        (abMinValue G pid s k (d - 1) Val.ninf Val.pinf st).2, ?_, ?_⟩
      · simp [abMakeMove, hts]
      · rcases abArgmaxLoop_mem G pid d rest
            (a, (abMinValue G pid s k (d - 1) Val.ninf Val.pinf st).1)
            (abMinValue G pid s k (d - 1) Val.ninf Val.pinf st).2 with h | h
        · rw [h, hts]
          simp
        · rw [hts]
          simp only [List.map_cons, List.mem_cons]
          exact Or.inr h
  · intro ht
    by_cases hany : ((G.trans (G.curPlayer g) g).map
        (fun t => (t.1, canonKey G (G.curPlayer g) t.2.1))).any
          (fun t => memV V t.2) = true
    · have hne : (G.trans (G.curPlayer g) g).map
          (fun t => (t.1, canonKey G (G.curPlayer g) t.2.1)) ≠ [] := by
        simpa using ht
      obtain ⟨c, hc⟩ : ∃ c, pyMaxBy
          (fun t => getV V t.2)
          ((G.trans (G.curPlayer g) g).map
            (fun t => (t.1, canonKey G (G.curPlayer g) t.2.1))) = some c := by
        cases hcts : (G.trans (G.curPlayer g) g).map
            (fun t => (t.1, canonKey G (G.curPlayer g) t.2.1)) with
        | nil => exact absurd hcts hne
        | cons c cs => exact ⟨_, rfl⟩
      refine ⟨c.1, ?_, ?_⟩
      · simp only [mcMakeMove]
        rw [if_pos hany, hc]
        rfl
      · have hcm := pyMaxBy_mem _ _ _ hc
        simp only [List.mem_map] at hcm
        obtain ⟨t, hmem, hti⟩ := hcm
        have hfst : c.1 = t.1 := by rw [← hti]
        rw [hfst]
        exact List.mem_map_of_mem (fun t => t.1) hmem
    · have hlen : 0 < (G.trans (G.curPlayer g) g).length :=
        List.length_pos.mpr ht
      have hmod : ch % (G.trans (G.curPlayer g) g).length
          < (G.trans (G.curPlayer g) g).length := Nat.mod_lt _ hlen
      obtain ⟨t, hget⟩ : ∃ t, (G.trans (G.curPlayer g) g).get?
          (ch % (G.trans (G.curPlayer g) g).length) = some t := by
        rw [List.get?_eq_getElem?, List.getElem?_eq_getElem hmod]
        exact ⟨_, rfl⟩
      refine ⟨t.1, ?_, ?_⟩
      · simp only [mcMakeMove]
        rw [if_neg hany, hget]
        rfl
      · exact List.mem_map_of_mem (fun t => t.1) (List.get?_mem hget)

/-- Witness for C10: the theorem applied to the concrete game cexC1 at
state 5, which has no transitions, and at the root state 0, which has two. -/
theorem c10_make_move_witness :
    (mmMakeMove cexC1 0 2 5 MMState.empty = none
      ∧ abMakeMove cexC1 0 2 5 MMState.empty = none)
    ∧ mcMakeMove cexC1 [] 0 5 = none
    ∧ ((∃ r, mmMakeMove cexC1 0 2 0 MMState.empty = some r
        ∧ r.1.1 ∈ (cexC1.trans 0 0).map (fun t => t.1))
      ∧ (∃ r, abMakeMove cexC1 0 2 0 MMState.empty = some r
        ∧ r.1.1 ∈ (cexC1.trans 0 0).map (fun t => t.1)))
    ∧ (∃ a, mcMakeMove cexC1 [] 0 0 = some a
        ∧ a ∈ (cexC1.trans (cexC1.curPlayer 0) 0).map (fun t => t.1)) := by
  have h1 := c10_make_move cexC1 0 2 5 MMState.empty [] 0
  have h2 := c10_make_move cexC1 0 2 0 MMState.empty [] 0
  exact ⟨h1.1 (by decide), h1.2.1 (by decide),
    h2.2.2.1 (by decide), h2.2.2.2 (by decide)⟩
